import Mathlib

/-!
Verification of the Engram memory-engine specification against the source of
the repository tstockham96/engram.

The development shallowly embeds the relevant source functions:
JavaScript number arrays become lists over the exact fields used by each
claim (real numbers where square roots occur, rationals elsewhere, and
integers for string indices), strings become lists of characters where
index arithmetic matters, and the asynchronous retry loops become
deterministic functions of the sequence of attempt outcomes.

The core vault engine (src/vault.ts, src/store.ts) is not part of the
provided sources; the definitions in the namespaces VaultModel and
RecallModel are therefore modelled from the specification text and marked
as such in their doc comments.
-/

namespace Engram

/-! ## Shared: memory lifecycle status

The status enumeration is shared by the store model and the evaluation
harness embeddings: one of active, pending, fulfilled, superseded,
archived. -/

inductive Status where
  | active
  | pending
  | fulfilled
  | superseded
  | archived
deriving DecidableEq

namespace EvalHonest

/-! ## Embedding of src/eval-honest.ts (cosineSim, vectorSearchMarkdown,
ScenarioResult, computeEQS)

cosineSim and vectorSearchMarkdown appear with identical bodies in
src/eval-honest.ts, src/eval-scale.ts and src/eval-enron.ts; they are
embedded once. -/

/-- Sum of pairwise products, the `dot` accumulator of cosineSim. -/
noncomputable def dotList (a b : List ℝ) : ℝ := (List.zipWith (fun x y => x * y) a b).sum

/-- Sum of squares, the `normA` / `normB` accumulators of cosineSim. -/
noncomputable def normSq (a : List ℝ) : ℝ := (a.map (fun x => x * x)).sum

/-- cosineSim from src/eval-honest.ts lines 62-70: dot over the common
prefix divided by the product of the square roots of the sums of squares.
Over the reals a division by a zero denominator yields 0. -/
noncomputable def cosineSim (a b : List ℝ) : ℝ :=
  dotList a b / (Real.sqrt (normSq a) * Real.sqrt (normSq b))

/-- A chunk paired with its similarity score, the element type of the
`scored` array built inside vectorSearchMarkdown. -/
structure Scored where
  chunk : String
  score : ℝ

/-- The comparator `(a, b) => b.score - a.score` of the JavaScript stable
sort, as the boolean relation "left element sorts no later than right
element", i.e. has the larger or equal score. -/
noncomputable def scoreDesc (x y : Scored) : Bool :=
  @decide (y.score ≤ x.score) (Classical.propDecidable _)

/-- vectorSearchMarkdown from src/eval-honest.ts lines 58-79: score every
chunk against the query embedding by cosine similarity, sort descending
with a stable sort, keep the first `limit` chunks. The query string and
the embedder call are external; the model receives the query embedding
directly. -/
noncomputable def vectorSearchMarkdown (queryEmb : List ℝ) (chunks : List String)
    (embeddings : List (List ℝ)) (limit : ℕ) : List String :=
  let scored := (chunks.zip embeddings).map fun p => Scored.mk p.1 (cosineSim queryEmb p.2)
  let sorted := scored.mergeSort scoreDesc
  (sorted.take limit).map Scored.chunk

/-- ScenarioResult from src/eval-honest.ts lines 302-312. The four quality
signals and the latency are numbers; `passed` and `details` are carried
along unchanged. -/
structure ScenarioResult where
  name : String
  category : String
  accuracy : ℚ
  relevance : ℚ
  freshness : ℚ
  efficiency : ℚ
  latencyMs : ℚ
  passed : Bool
  details : Option String

/-- JavaScript Math.round on a finite number: floor of the value plus one
half. -/
def jsRound (q : ℚ) : ℤ := Int.floor (q + 1 / 2)

/-- computeEQS from src/eval-honest.ts lines 783-816: average each signal
over the results, clamp the latency score into [0, 1] per result
(under 50 ms scores 1, over 500 ms scores 0, linear in between), combine
with weights 0.40 / 0.20 / 0.15 / 0.15 / 0.10 and round to an integer
percentage. -/
def computeEQS (results : List ScenarioResult) : ℤ :=
  let n : ℚ := results.length
  let totalAccuracy : ℚ := (results.map (fun r => r.accuracy)).sum
  let totalRelevance : ℚ := (results.map (fun r => r.relevance)).sum
  let totalFreshness : ℚ := (results.map (fun r => r.freshness)).sum
  let totalEfficiency : ℚ := (results.map (fun r => r.efficiency)).sum
  let totalLatency : ℚ :=
    (results.map (fun r => max 0 (min 1 (1 - (r.latencyMs - 50) / 450)))).sum
  let score : ℚ :=
    totalAccuracy / n * (40 / 100) + totalRelevance / n * (20 / 100) +
    totalFreshness / n * (15 / 100) + totalEfficiency / n * (15 / 100) +
    totalLatency / n * (10 / 100)
  jsRound (score * 100)

end EvalHonest

/-! ## Retry models

A call to the Gemini API is embedded as a deterministic function of the
sequence of outcomes the network produces for attempt 1, 2, 3, ...; the
embedding returns the final result together with the list of backoff
delays slept (in milliseconds, excluding the fixed pre-call rate-limit
sleep) and the number of fetch calls performed. -/

/-- Result of one fetch call inside the LOCOMO harness: an HTTP response
with a status code and extracted text, or a thrown network error which is
either transient (ECONNRESET, fetch failed, ETIMEDOUT, TimeoutError,
AbortError) or not. -/
inductive FetchOutcome where
  | response (status : ℕ) (text : String)
  | netError (transient : Bool) (msg : String)

/-- Observable behaviour of one callGemini invocation: final result,
backoff delays slept, number of fetch calls made. -/
structure CallTrace where
  result : Except String String
  delays : List ℕ
  attempts : ℕ

/-- A delay sequence is an exponential backoff when consecutive delays
grow by a fixed ratio strictly greater than one. -/
def IsExponentialBackoff (ds : List ℕ) : Prop :=
  ∃ r : ℚ, 1 < r ∧ ∀ i, i + 1 < ds.length → (ds.getD (i + 1) 0 : ℚ) = r * ds.getD i 0

namespace Locomo

/-- Rate limit constant of src/unnamed/part_002 line 33. -/
def RATE_LIMIT_MS : ℕ := 800

/-- Retry budget of callGemini in src/unnamed/part_002 line 98. -/
def MAX_RETRIES : ℕ := 10

/-- Modelled from src/unnamed/part_002 lines 97-144 (callGemini of the
LOCOMO harness): the loop body for attempts numbered `attempt` and up.
HTTP 429 and 5xx back off for RATE_LIMIT_MS times two to the power
`attempt` and retry; other non-2xx statuses throw; transient network
errors back off the same way and retry while attempts remain; after the
loop the call throws. -/
def callGeminiFrom (responses : ℕ → FetchOutcome) (attempt : ℕ) : CallTrace :=
  if _h : attempt > MAX_RETRIES then
    { result := Except.error "Gemini API failed after MAX_RETRIES retries",
      delays := [], attempts := 0 }
  else
    match responses attempt with
    | FetchOutcome.response status text =>
      if status = 429 ∨ status ≥ 500 then
        let backoff := RATE_LIMIT_MS * 2 ^ attempt
        let rest := callGeminiFrom responses (attempt + 1)
        { result := rest.result, delays := backoff :: rest.delays,
          attempts := rest.attempts + 1 }
      else if 200 ≤ status ∧ status ≤ 299 then
        { result := Except.ok text, delays := [], attempts := 1 }
      else
        { result := Except.error "Gemini API failed: HTTP error",
          delays := [], attempts := 1 }
    | FetchOutcome.netError transient _msg =>
      if transient ∧ attempt < MAX_RETRIES then
        let backoff := RATE_LIMIT_MS * 2 ^ attempt
        let rest := callGeminiFrom responses (attempt + 1)
        { result := rest.result, delays := backoff :: rest.delays,
          attempts := rest.attempts + 1 }
      else
        { result := Except.error "network error", delays := [], attempts := 1 }
termination_by MAX_RETRIES + 1 - attempt
decreasing_by all_goals simp only [MAX_RETRIES] at *; omega

/-- callGemini of the LOCOMO harness starts at attempt 1. -/
def callGemini (responses : ℕ → FetchOutcome) : CallTrace :=
  callGeminiFrom responses 1

/-- An outcome the LOCOMO callGemini treats as transient: HTTP 429 or 5xx,
or a transient network error. -/
def Transient : FetchOutcome → Prop
  | FetchOutcome.response status _ => status = 429 ∨ status ≥ 500
  | FetchOutcome.netError transient _ => transient = true

end Locomo

namespace RagBaseline

/-- Result of one attempt inside the RAG-baseline callGemini: extracted
text, an HTTP 429 response, or anything the try block throws (a network
error, or a response body without candidate text). -/
inductive AttemptOutcome where
  | okText (text : String)
  | rate429
  | thrown (msg : String)

/-- Modelled from src/eval-rag-baseline.ts lines 34-52 (callGemini of the
RAG baseline): attempts are numbered 0, 1, 2. A 429 sleeps 5000 times
(attempt + 1) milliseconds and retries; a thrown error rethrows on the
last attempt and otherwise sleeps a constant 3000 milliseconds and
retries; after the loop the call throws. -/
def callGeminiFrom (responses : ℕ → AttemptOutcome) (attempt : ℕ) : CallTrace :=
  if _h : attempt > 2 then
    { result := Except.error "Failed after 3 attempts", delays := [], attempts := 0 }
  else
    match responses attempt with
    | AttemptOutcome.okText t => { result := Except.ok t, delays := [], attempts := 1 }
    | AttemptOutcome.rate429 =>
      let rest := callGeminiFrom responses (attempt + 1)
      { result := rest.result, delays := 5000 * (attempt + 1) :: rest.delays,
        attempts := rest.attempts + 1 }
    | AttemptOutcome.thrown m =>
      if attempt = 2 then { result := Except.error m, delays := [], attempts := 1 }
      else
        let rest := callGeminiFrom responses (attempt + 1)
        { result := rest.result, delays := 3000 :: rest.delays,
          attempts := rest.attempts + 1 }
termination_by 3 - attempt
decreasing_by all_goals omega

/-- callGemini of the RAG baseline starts at attempt 0. -/
def callGemini (responses : ℕ → AttemptOutcome) : CallTrace :=
  callGeminiFrom responses 0

/-- The delay the RAG-baseline callGemini sleeps after a failed attempt
numbered `i`: linear in the attempt number for a rate limit, constant
otherwise. -/
def ragDelay (o : AttemptOutcome) (i : ℕ) : ℕ :=
  match o with
  | AttemptOutcome.rate429 => 5000 * (i + 1)
  | _ => 3000

/-- One entry of the list returned by store.searchByVector, as consumed by
answerWithBasicRAG. -/
structure VectorResult where
  memoryId : ℕ
  score : ℚ

/-- The part of a hydrated memory row that answerWithBasicRAG reads:
content and lifecycle status. -/
structure StoredMemory where
  content : String
  status : Status

/-- The retrieval filter of answerWithBasicRAG, src/eval-rag-baseline.ts
lines 62-72: hydrate every vector-search id through getMemoryDirect and
keep the content of every found, non-archived memory, in order. The store
is abstracted as the lookup function the code calls. -/
def basicRAGMemories (getMemoryDirect : ℕ → Option StoredMemory)
    (vectorResults : List VectorResult) : List String :=
  vectorResults.filterMap fun vr =>
    match getMemoryDirect vr.memoryId with
    | some mem => if mem.status ≠ Status.archived then some mem.content else none
    | none => none

/-- The context string assembled by answerWithBasicRAG: the recalled
memory contents joined by blank lines. -/
def assembledContext (getMemoryDirect : ℕ → Option StoredMemory)
    (vectorResults : List VectorResult) : String :=
  String.intercalate "\n\n" (basicRAGMemories getMemoryDirect vectorResults)

/-- A vector-search result whose hydrated memory is not an archived row
(missing rows hydrate to nothing and are kept by the filter; they
contribute nothing either way). -/
def notArchivedResult (getMemoryDirect : ℕ → Option StoredMemory)
    (vr : VectorResult) : Bool :=
  match getMemoryDirect vr.memoryId with
  | some mem => !(mem.status == Status.archived)
  | none => true

end RagBaseline

namespace EvalCodebase

/-! ## Embedding of chunkFile, src/unnamed/part_004 lines 240-265

File contents are lists of characters; indices are integers because the
JavaScript arithmetic can go negative before the explicit clamp. -/

/-- JavaScript String.prototype.slice over a character list: negative
indices count from the end, then both are clamped into the string. -/
def jsSlice (s : List Char) (a b : ℤ) : List Char :=
  let n : ℤ := s.length
  let a2 : ℤ := if a < 0 then max (n + a) 0 else min a n
  let b2 : ℤ := if b < 0 then max (n + b) 0 else min b n
  (s.take b2.toNat).drop a2.toNat

/-- JavaScript String.prototype.lastIndexOf for the single character
newline with a fromIndex: the largest index at most the (zero-clamped)
position holding a newline, or -1. -/
def jsLastIndexOfNL (s : List Char) (pos : ℤ) : ℤ :=
  let p : ℤ := max pos 0
  (((List.range s.length).filter fun i =>
      decide ((Int.ofNat i) ≤ p) && decide (s.getD i ' ' = '\n')).map fun i => (i : ℤ)).foldr max (-1)

/-- One element of the list chunkFile returns. -/
structure CodeChunk where
  content : List Char
  part : ℕ
deriving DecidableEq

/-- The while loop of chunkFile for the current `start` offset and `part`
number. Each pass slices [start, breakPoint), preferring a newline break
past the midpoint of the window, steps `start` back by `overlap` (clamped
at 0), increments `part`, and stops once `part` would exceed 50 (the
safety limit in the source) or `start` reaches the end. The comparison
`lastNewline > start + maxChars / 2` is written with both sides doubled,
which is equivalent over exact arithmetic. -/
def chunkLoop (content : List Char) (maxChars overlap : ℤ) (start : ℤ)
    (part : ℕ) : List CodeChunk :=
  if start < (content.length : ℤ) then
    let e : ℤ := min (start + maxChars) (content.length : ℤ)
    let breakPoint : ℤ :=
      if e < (content.length : ℤ) then
        let lastNewline := jsLastIndexOfNL content e
        if 2 * lastNewline > 2 * start + maxChars then lastNewline + 1 else e
      else e
    let piece : CodeChunk := ⟨jsSlice content start breakPoint, part⟩
    let start2 : ℤ := breakPoint - overlap
    let start3 : ℤ := if start2 < 0 then 0 else start2
    if _h : part + 1 > 50 then [piece]
    else piece :: chunkLoop content maxChars overlap start3 (part + 1)
  else []
termination_by 51 - part
decreasing_by omega

/-- chunkFile from src/unnamed/part_004 lines 240-265 (defaults maxChars =
2000, overlap = 200): contents no longer than maxChars become a single
part-1 chunk, otherwise the windowed loop runs from offset 0 with part
number 1. -/
def chunkFile (content : List Char) (maxChars overlap : ℤ) : List CodeChunk :=
  if (content.length : ℤ) ≤ maxChars then [⟨content, 1⟩]
  else chunkLoop content maxChars overlap 0 1

end EvalCodebase

namespace VaultModel

/-! ## Store model

Modelled from the spec: the store operations of section 4.1 (insert,
reinforce, supersede, forget, stamp, and the decay pass of section 4.8)
and the Memory record of section 3, which live in src/store.ts and
src/vault.ts, files not among the provided sources. Edges, embeddings and
full-text data are omitted: the supersession invariant of the claim reads
none of them. -/

/-- Modelled from the spec: the fields of the Memory record (section 3)
that the lifecycle operations mutate. `valid_until` is an integer instant
or top, the spec notation for "current truth". -/
structure Mem where
  content : String
  status : Status
  salience : ℚ
  valid_from : ℤ
  valid_until : WithTop ℤ
  last_accessed_at : ℤ
  reinforcement_count : ℕ
  superseded_by : Option ℕ

/-- The store: memory rows keyed by id. -/
abbrev Store := List (ℕ × Mem)

/-- Row lookup by id. -/
def lookup (s : Store) (id : ℕ) : Option Mem := List.lookup id s

/-- Update the row with the given id in place, leaving other rows alone. -/
def setMem (s : Store) (id : ℕ) (f : Mem → Mem) : Store :=
  s.map fun p => if p.1 = id then (p.1, f p.2) else p

/-- Modelled from the spec: the mutating operations of sections 4.1 and
4.8. `supersede` carries the transition instant `t`; `forget` carries the
hard flag. -/
inductive Op where
  | insert (id : ℕ) (content : String) (status : Status) (now : ℤ)
  | reinforce (id : ℕ) (incr : ℚ)
  | supersede (oldId newId : ℕ) (t : ℤ)
  | forget (id : ℕ) (hard : Bool)
  | stamp (id : ℕ) (w : ℤ)
  | decay (id : ℕ) (amount : ℚ)

/-- Modelled from the spec, section 4.1: insert fails on a duplicate id
(Conflict, no mutation) and accepts the statuses the auto-extractor
produces (active, pending, fulfilled — section 4.2); reinforce raises
salience clamped at 1 and increments the count; supersede sets the old
row to valid_until = t, status = superseded, superseded_by = newId when
both rows exist; soft forget sets archived; hard forget removes the row;
stamp updates last_accessed_at; decay lowers salience clamped at 0. -/
def step (s : Store) (op : Op) : Store :=
  match op with
  | Op.insert id content st now =>
    if (lookup s id).isNone ∧ st ≠ Status.superseded ∧ st ≠ Status.archived then
      (id, { content := content, status := st, salience := 1 / 2, valid_from := now,
             valid_until := ⊤, last_accessed_at := now, reinforcement_count := 0,
             superseded_by := none }) :: s
    else s
  | Op.reinforce id incr => setMem s id fun m =>
      { m with salience := min 1 (m.salience + incr),
               reinforcement_count := m.reinforcement_count + 1 }
  | Op.supersede oldId newId t =>
    if (lookup s oldId).isSome ∧ (lookup s newId).isSome then
      setMem s oldId fun m =>
        { m with valid_until := (t : WithTop ℤ), status := Status.superseded,
                 superseded_by := some newId }
    else s
  | Op.forget id hard =>
    if hard then s.filter fun p => p.1 != id
    else setMem s id fun m => { m with status := Status.archived }
  | Op.stamp id w => setMem s id fun m => { m with last_accessed_at := w }
  | Op.decay id amount => setMem s id fun m =>
      { m with salience := max 0 (m.salience - amount) }

/-- Run a list of operations against a store. -/
def run (s : Store) (ops : List Op) : Store := ops.foldl step s

/-- The supersession condition of the claim for one row, as a boolean
check: status is superseded exactly when superseded_by is set, and a set
superseded_by points to an existing row with status active whose
valid_from is at least the valid_until of this row. -/
def memOkB (s : Store) (m : Mem) : Bool :=
  (decide (m.status = Status.superseded) == decide (m.superseded_by ≠ none)) &&
  (match m.superseded_by with
   | none => true
   | some succId =>
     match lookup s succId with
     | none => false
     | some msucc =>
       decide (msucc.status = Status.active) &&
       decide (m.valid_until ≤ (msucc.valid_from : WithTop ℤ)))

/-- The supersession invariant over a whole store. -/
def Invariant (s : Store) : Prop := ∀ p ∈ s, memOkB s p.2 = true

/-- Preconditions under which an operation preserves the supersession
invariant: a supersession must target a distinct, active successor no
older than the transition instant, and a predecessor nobody else points
to; a forget must not remove or archive a row some predecessor points to,
and a soft forget must not archive a superseded row (that would clear its
status but not its pointer). -/
def okOpB (s : Store) (op : Op) : Bool :=
  match op with
  | Op.insert _ _ _ _ => true
  | Op.reinforce _ _ => true
  | Op.supersede oldId newId t =>
    decide (oldId ≠ newId) &&
    (s.all fun p => p.2.superseded_by != some oldId) &&
    (match lookup s newId with
     | some mn => decide (mn.status = Status.active) && decide (t ≤ mn.valid_from)
     | none => true)
  | Op.forget id hard =>
    (s.all fun p => p.2.superseded_by != some id) &&
    (hard || (match lookup s id with
              | some m => decide (m.status ≠ Status.superseded)
              | none => true))
  | Op.stamp _ _ => true
  | Op.decay _ _ => true

/-- A trace is guarded when every operation satisfies its precondition in
the state it runs against. -/
def GuardedB (s : Store) : List Op → Bool
  | [] => true
  | op :: rest => okOpB s op && GuardedB (step s op) rest

end VaultModel

namespace RecallModel

/-! ## Recall dedup and point-in-time filter

Modelled from the spec: the dedup phase (section 4.5.5) and the
point-in-time filter (section 4.5.1) of the recall pipeline, which live
in src/vault.ts, a file not among the provided sources. -/

/-- Modelled from the spec: a scored recall candidate entering the dedup
phase, carrying its primary entity, topic signature, score, lifecycle
status and bi-temporal validity interval. -/
structure Cand where
  id : ℕ
  primaryEntity : String
  topicSig : String
  score : ℚ
  status : Status
  validFrom : ℤ
  validUntil : WithTop ℤ
deriving DecidableEq

/-- The grouping key of the dedup phase. -/
def keyOf (c : Cand) : String × String := (c.primaryEntity, c.topicSig)

/-- The distinct group keys occurring among the candidates, in first-seen
order. -/
def groupKeys (cands : List Cand) : List (String × String) :=
  (cands.map keyOf).dedup

/-- The group of candidates sharing a key. -/
def groupOf (cands : List Cand) (k : String × String) : List Cand :=
  cands.filter fun c => decide (keyOf c = k)

/-- Modelled from the spec: within a group, the retained candidate is the
one with the latest valid_from among those whose status is active (none
when the group has no active member — the spec does not speak to that
case). -/
def latestActive : List Cand → Option Cand
  | [] => none
  | c :: rest =>
    match latestActive rest with
    | none => if c.status = Status.active then some c else none
    | some b =>
      if c.status = Status.active ∧ b.validFrom < c.validFrom then some c else some b

/-- Modelled from the spec, section 4.5.5: group candidates by (primary
entity, topic signature); each group with an active member contributes
one retained candidate together with the dedup set of its remaining
members. -/
def dedupPhase (cands : List Cand) : List (Cand × List Cand) :=
  (groupKeys cands).filterMap fun k =>
    match latestActive (groupOf cands k) with
    | some r => some (r, (groupOf cands k).filter fun c => decide (c ≠ r))
    | none => none

/-- Modelled from the spec, section 4.5.1: the point-in-time filter keeps
the candidates whose half-open validity interval contains the instant. -/
def pitFilter (t : ℤ) (cands : List Cand) : List Cand :=
  cands.filter fun c => decide (c.validFrom ≤ t) && decide ((t : WithTop ℤ) < c.validUntil)

/-- Modelled from the spec, sections 4.5.1 and 4.5.6: a recall with an
optional point-in-time instant filters by validity, orders by descending
score, and returns the top `limit`. -/
def recallAt (t : Option ℤ) (cands : List Cand) (limit : ℕ) : List Cand :=
  let cs := match t with
    | some u => pitFilter u cands
    | none => cands
  (cs.mergeSort fun x y => decide (y.score ≤ x.score)).take limit

end RecallModel

/-! ## Theorems -/

namespace EvalHonest

theorem normSq_nonneg (a : List ℝ) : 0 ≤ normSq a := by
  unfold normSq
  induction a with
  | nil => simp
  | cons x xs ih => simp only [List.map_cons, List.sum_cons]; nlinarith [sq_nonneg x]

theorem cauchy_step (x y d A B : ℝ) (hA : 0 ≤ A) (hB : 0 ≤ B) (h : d ^ 2 ≤ A * B) :
    (x * y + d) ^ 2 ≤ (x * x + A) * (y * y + B) := by
  rcases eq_or_lt_of_le hB with hB0 | hBpos
  · have hd0 : d = 0 := by nlinarith [sq_nonneg d]
    subst hd0
    rw [← hB0]
    nlinarith [mul_nonneg hA (sq_nonneg y)]
  · have key : (0:ℝ) ≤ (x * B - y * d) ^ 2 + y ^ 2 * (A * B - d ^ 2) :=
      add_nonneg (sq_nonneg _) (mul_nonneg (sq_nonneg y) (by nlinarith))
    have key2 : (0:ℝ) ≤ B * (x ^ 2 * B + A * y ^ 2 - 2 * x * y * d) := by nlinarith [key]
    have key3 : (0:ℝ) ≤ x ^ 2 * B + A * y ^ 2 - 2 * x * y * d :=
      (mul_nonneg_iff_of_pos_left hBpos).mp key2
    nlinarith [key3, h]

theorem dotList_sq_le (a b : List ℝ) : dotList a b ^ 2 ≤ normSq a * normSq b := by
  induction a generalizing b with
  | nil => simp [dotList, normSq]
  | cons x xs ih =>
    cases b with
    | nil =>
      have h1 := normSq_nonneg (x :: xs)
      have h2 := normSq_nonneg ([] : List ℝ)
      simp only [dotList, List.zipWith_nil_right, List.sum_nil, normSq, List.map_nil] at *
      nlinarith
    | cons y ys =>
      have h := ih ys
      have hA := normSq_nonneg xs
      have hB := normSq_nonneg ys
      simp only [dotList, normSq, List.zipWith_cons_cons, List.sum_cons, List.map_cons] at *
      exact cauchy_step x y _ _ _ hA hB h

theorem dotList_self (a : List ℝ) : dotList a a = normSq a := by
  induction a with
  | nil => rfl
  | cons x xs ih =>
    simp only [dotList, normSq, List.zipWith_cons_cons, List.sum_cons, List.map_cons] at *
    rw [ih]

theorem abs_dotList_le (a b : List ℝ) :
    |dotList a b| ≤ Real.sqrt (normSq a) * Real.sqrt (normSq b) := by
  rw [← Real.sqrt_sq_eq_abs, ← Real.sqrt_mul (normSq_nonneg a)]
  exact Real.sqrt_le_sqrt (dotList_sq_le a b)

theorem dotList_comm (a b : List ℝ) : dotList a b = dotList b a := by
  unfold dotList
  induction a generalizing b with
  | nil => cases b <;> simp
  | cons x xs ih =>
    cases b with
    | nil => simp
    | cons y ys => simp only [List.zipWith_cons_cons, List.sum_cons, ih, mul_comm]

theorem cosineSim_comm (a b : List ℝ) : cosineSim a b = cosineSim b a := by
  unfold cosineSim
  rw [dotList_comm, mul_comm]

theorem cosineSim_bounds (a b : List ℝ) : -1 ≤ cosineSim a b ∧ cosineSim a b ≤ 1 := by
  unfold cosineSim
  rcases eq_or_lt_of_le
      (mul_nonneg (Real.sqrt_nonneg (normSq a)) (Real.sqrt_nonneg (normSq b))) with h0 | hpos
  · rw [← h0, div_zero]
    norm_num
  · rw [← abs_le, abs_div, abs_of_pos hpos, div_le_one hpos]
    exact abs_dotList_le a b

theorem cosineSim_self_eq_one (a : List ℝ) (ha : Real.sqrt (normSq a) ≠ 0) :
    cosineSim a a = 1 := by
  unfold cosineSim
  rw [dotList_self, Real.mul_self_sqrt (normSq_nonneg a)]
  refine div_self fun h => ha ?_
  rw [h, Real.sqrt_zero]

/-- C10: For real vectors a and b of the same length with nonzero
Euclidean norm, cosineSim is symmetric, its value lies in [-1, 1] by the
Cauchy-Schwarz inequality, and cosineSim of a nonzero vector with itself
is 1, over exact real arithmetic. -/
theorem cosineSim_props (a b : List ℝ) (hab : a.length = b.length)
    (ha : Real.sqrt (normSq a) ≠ 0) (hb : Real.sqrt (normSq b) ≠ 0) :
    cosineSim a b = cosineSim b a ∧
    (-1 ≤ cosineSim a b ∧ cosineSim a b ≤ 1) ∧
    cosineSim a a = 1 :=
  ⟨cosineSim_comm a b, cosineSim_bounds a b, cosineSim_self_eq_one a ha⟩

/-- Instantiation of cosineSim_props at the one-dimensional unit vectors. -/
theorem cosineSim_props_witness :
    cosineSim [(1:ℝ)] [(1:ℝ)] = cosineSim [(1:ℝ)] [(1:ℝ)] ∧
    (-1 ≤ cosineSim [(1:ℝ)] [(1:ℝ)] ∧ cosineSim [(1:ℝ)] [(1:ℝ)] ≤ 1) ∧
    cosineSim [(1:ℝ)] [(1:ℝ)] = 1 :=
  cosineSim_props [(1:ℝ)] [(1:ℝ)] rfl
    (by norm_num [normSq]) (by norm_num [normSq])

theorem mergeSort_scoreDesc_pairwise (l : List Scored) :
    (l.mergeSort scoreDesc).Pairwise (fun x y => y.score ≤ x.score) := by
  have h := @List.sorted_mergeSort Scored scoreDesc
    (fun a b c hab hbc => by
      simp only [scoreDesc, decide_eq_true_eq] at *
      exact le_trans hbc hab)
    (fun a b => by
      simp only [scoreDesc, Bool.or_eq_true, decide_eq_true_eq]
      exact le_total b.score a.score)
    l
  exact h.imp (fun {a b} hab => by simpa [scoreDesc] using hab)

/-- C1: For every query embedding, chunk list and equal-length embedding
list, vectorSearchMarkdown returns at most `limit` chunks, and they are
the first `limit` entries of a descending-by-similarity reordering of all
scored chunks: the output is sorted by descending cosine similarity and
every returned entry scores at least as high as every entry left out
(top-k by cosine similarity). -/
theorem vectorSearchMarkdown_topk (queryEmb : List ℝ) (chunks : List String)
    (embeddings : List (List ℝ)) (limit : ℕ)
    (hlen : chunks.length = embeddings.length) :
    ∃ sorted : List Scored,
      List.Perm sorted
        ((chunks.zip embeddings).map fun p => Scored.mk p.1 (cosineSim queryEmb p.2)) ∧
      sorted.Pairwise (fun x y => y.score ≤ x.score) ∧
      vectorSearchMarkdown queryEmb chunks embeddings limit =
        (sorted.take limit).map Scored.chunk ∧
      (vectorSearchMarkdown queryEmb chunks embeddings limit).length ≤ limit ∧
      ∀ x ∈ sorted.take limit, ∀ y ∈ sorted.drop limit, y.score ≤ x.score := by
  refine ⟨((chunks.zip embeddings).map
      fun p => Scored.mk p.1 (cosineSim queryEmb p.2)).mergeSort scoreDesc,
    List.mergeSort_perm _ _, mergeSort_scoreDesc_pairwise _, by rfl, ?_, ?_⟩
  · unfold vectorSearchMarkdown
    simp only [List.length_map, List.length_take]
    exact min_le_left _ _
  · intro x hx y hy
    have hp := mergeSort_scoreDesc_pairwise
      ((chunks.zip embeddings).map fun p => Scored.mk p.1 (cosineSim queryEmb p.2))
    rw [← List.take_append_drop limit (((chunks.zip embeddings).map
      fun p => Scored.mk p.1 (cosineSim queryEmb p.2)).mergeSort scoreDesc)] at hp
    exact ((List.pairwise_append.mp hp).2.2) x hx y hy

/-- Instantiation of vectorSearchMarkdown_topk at a singleton corpus. -/
theorem vectorSearchMarkdown_topk_witness :
    ∃ sorted : List Scored,
      List.Perm sorted
        ((["a"].zip [[(1:ℝ)]]).map fun p => Scored.mk p.1 (cosineSim [(1:ℝ)] p.2)) ∧
      sorted.Pairwise (fun x y => y.score ≤ x.score) ∧
      vectorSearchMarkdown [(1:ℝ)] ["a"] [[(1:ℝ)]] 1 =
        (sorted.take 1).map Scored.chunk ∧
      (vectorSearchMarkdown [(1:ℝ)] ["a"] [[(1:ℝ)]] 1).length ≤ 1 ∧
      ∀ x ∈ sorted.take 1, ∀ y ∈ sorted.drop 1, y.score ≤ x.score :=
  vectorSearchMarkdown_topk [(1:ℝ)] ["a"] [[(1:ℝ)]] 1 rfl

theorem list_sum_bounds (results : List ScenarioResult) (f : ScenarioResult → ℚ)
    (h : ∀ r ∈ results, 0 ≤ f r ∧ f r ≤ 1) :
    0 ≤ (results.map f).sum ∧ (results.map f).sum ≤ (results.length : ℚ) := by
  constructor
  · apply List.sum_nonneg
    intro x hx
    obtain ⟨r, hr, rfl⟩ := List.mem_map.mp hx
    exact (h r hr).1
  · calc (results.map f).sum ≤ (results.map f).length • (1:ℚ) :=
        List.sum_le_card_nsmul _ 1 (fun x hx => by
          obtain ⟨r, hr, rfl⟩ := List.mem_map.mp hx
          exact (h r hr).2)
    _ = (results.length : ℚ) := by simp

theorem jsRound_mul100_bounds (q : ℚ) (h0 : 0 ≤ q) (h1 : q ≤ 1) :
    0 ≤ jsRound (q * 100) ∧ jsRound (q * 100) ≤ 100 := by
  unfold jsRound
  constructor
  · exact Int.floor_nonneg.mpr (by linarith)
  · have h : q * 100 + 1 / 2 ≤ 201 / 2 := by linarith
    calc Int.floor (q * 100 + 1 / 2) ≤ Int.floor ((201:ℚ) / 2) := Int.floor_le_floor h
      _ = 100 := by norm_num

/-- C8: For every nonempty result list whose accuracy, relevance,
freshness and efficiency lie in [0, 1] and whose latency is nonnegative,
computeEQS is an integer between 0 and 100: the five weights sum to one
and the latency term is clamped into [0, 1] before averaging. -/
theorem computeEQS_range (results : List ScenarioResult) (hne : results ≠ [])
    (hb : ∀ r ∈ results,
      0 ≤ r.accuracy ∧ r.accuracy ≤ 1 ∧ 0 ≤ r.relevance ∧ r.relevance ≤ 1 ∧
      0 ≤ r.freshness ∧ r.freshness ≤ 1 ∧ 0 ≤ r.efficiency ∧ r.efficiency ≤ 1 ∧
      0 ≤ r.latencyMs) :
    0 ≤ computeEQS results ∧ computeEQS results ≤ 100 := by
  have hn : (0:ℚ) < (results.length : ℚ) := by
    exact_mod_cast List.length_pos.mpr hne
  have hA := list_sum_bounds results (fun r => r.accuracy)
    (fun r hr => ⟨(hb r hr).1, (hb r hr).2.1⟩)
  have hR := list_sum_bounds results (fun r => r.relevance)
    (fun r hr => ⟨(hb r hr).2.2.1, (hb r hr).2.2.2.1⟩)
  have hF := list_sum_bounds results (fun r => r.freshness)
    (fun r hr => ⟨(hb r hr).2.2.2.2.1, (hb r hr).2.2.2.2.2.1⟩)
  have hE := list_sum_bounds results (fun r => r.efficiency)
    (fun r hr => ⟨(hb r hr).2.2.2.2.2.2.1, (hb r hr).2.2.2.2.2.2.2.1⟩)
  have hL := list_sum_bounds results (fun r => max 0 (min 1 (1 - (r.latencyMs - 50) / 450)))
    (fun r hr => ⟨le_max_left _ _, max_le (by norm_num) (min_le_left _ _)⟩)
  have dA : 0 ≤ (results.map (fun r => r.accuracy)).sum / (results.length : ℚ) ∧
      (results.map (fun r => r.accuracy)).sum / (results.length : ℚ) ≤ 1 :=
    ⟨div_nonneg hA.1 hn.le, (div_le_one hn).mpr hA.2⟩
  have dR : 0 ≤ (results.map (fun r => r.relevance)).sum / (results.length : ℚ) ∧
      (results.map (fun r => r.relevance)).sum / (results.length : ℚ) ≤ 1 :=
    ⟨div_nonneg hR.1 hn.le, (div_le_one hn).mpr hR.2⟩
  have dF : 0 ≤ (results.map (fun r => r.freshness)).sum / (results.length : ℚ) ∧
      (results.map (fun r => r.freshness)).sum / (results.length : ℚ) ≤ 1 :=
    ⟨div_nonneg hF.1 hn.le, (div_le_one hn).mpr hF.2⟩
  have dE : 0 ≤ (results.map (fun r => r.efficiency)).sum / (results.length : ℚ) ∧
      (results.map (fun r => r.efficiency)).sum / (results.length : ℚ) ≤ 1 :=
    ⟨div_nonneg hE.1 hn.le, (div_le_one hn).mpr hE.2⟩
  have dL : 0 ≤ (results.map (fun r => max 0 (min 1 (1 - (r.latencyMs - 50) / 450)))).sum /
        (results.length : ℚ) ∧
      (results.map (fun r => max 0 (min 1 (1 - (r.latencyMs - 50) / 450)))).sum /
        (results.length : ℚ) ≤ 1 :=
    ⟨div_nonneg hL.1 hn.le, (div_le_one hn).mpr hL.2⟩
  simp only [computeEQS]
  apply jsRound_mul100_bounds
  · linarith [dA.1, dR.1, dF.1, dE.1, dL.1]
  · linarith [dA.2, dR.2, dF.2, dE.2, dL.2]

/-- Instantiation of computeEQS_range at a single perfect result. -/
theorem computeEQS_range_witness :
    0 ≤ computeEQS [⟨"s", "c", 1, 1, 1, 1, 0, true, none⟩] ∧
    computeEQS [⟨"s", "c", 1, 1, 1, 1, 0, true, none⟩] ≤ 100 :=
  computeEQS_range [⟨"s", "c", 1, 1, 1, 1, 0, true, none⟩] (by simp)
    (by
      intro r hr
      simp only [List.mem_singleton] at hr
      subst hr
      norm_num)

end EvalHonest

namespace VaultModel

theorem lookup_cons (id : ℕ) (nm : Mem) (s : Store) (k : ℕ) :
    lookup ((id, nm) :: s) k = if k = id then some nm else lookup s k := by
  by_cases h : k = id
  · subst h
    simp [lookup, List.lookup]
  · have hb : (k == id) = false := beq_eq_false_iff_ne.mpr h
    simp [lookup, List.lookup, hb, h]

theorem setMem_cons (a : ℕ) (m : Mem) (rest : Store) (id : ℕ) (f : Mem → Mem) :
    setMem ((a, m) :: rest) id f =
      (if a = id then (a, f m) else (a, m)) :: setMem rest id f := by
  by_cases ha : a = id
  · simp [setMem, ha]
  · simp [setMem, ha]

theorem lookup_setMem (s : Store) (id k : ℕ) (f : Mem → Mem) :
    lookup (setMem s id f) k = if k = id then (lookup s id).map f else lookup s k := by
  induction s with
  | nil => simp [lookup, setMem, List.lookup]
  | cons p rest ih =>
    obtain ⟨a, m⟩ := p
    rw [setMem_cons]
    by_cases ha : a = id
    · rw [if_pos ha]
      subst ha
      by_cases hk : k = a
      · subst hk
        rw [lookup_cons, lookup_cons, if_pos rfl, if_pos rfl, if_pos rfl]
        rfl
      · rw [lookup_cons, if_neg hk, ih, if_neg hk, if_neg hk, lookup_cons, if_neg hk]
    · rw [if_neg ha]
      by_cases hk : k = a
      · subst hk
        rw [lookup_cons, if_pos rfl, if_neg ha, lookup_cons, if_pos rfl]
      · rw [lookup_cons, if_neg hk, ih]
        by_cases hki : k = id
        · rw [if_pos hki, if_pos hki, lookup_cons]
          have hia : id ≠ a := fun hh => hk (hki.trans hh)
          rw [if_neg hia]
        · rw [if_neg hki, if_neg hki, lookup_cons, if_neg hk]

theorem lookup_filter_ne (s : Store) (id k : ℕ) (h : k ≠ id) :
    lookup (s.filter fun p => p.1 != id) k = lookup s k := by
  induction s with
  | nil => rfl
  | cons p rest ih =>
    obtain ⟨a, m⟩ := p
    rw [List.filter_cons]
    by_cases hai : a = id
    · subst hai
      rw [if_neg (by simp)]
      rw [ih, lookup_cons, if_neg h]
    · rw [if_pos (by simpa using hai)]
      by_cases hk : k = a
      · subst hk
        rw [lookup_cons, lookup_cons, if_pos rfl, if_pos rfl]
      · rw [lookup_cons, lookup_cons, if_neg hk, if_neg hk, ih]

theorem memOkB_iff (s : Store) (m : Mem) :
    memOkB s m = true ↔
    ((m.status = Status.superseded ↔ m.superseded_by ≠ none) ∧
     ∀ succId, m.superseded_by = some succId →
       ∃ msucc, lookup s succId = some msucc ∧ msucc.status = Status.active ∧
         m.valid_until ≤ (msucc.valid_from : WithTop ℤ)) := by
  unfold memOkB
  cases hsb : m.superseded_by with
  | none => simp [hsb]
  | some succId =>
    cases hl : lookup s succId with
    | none => simp [hsb, hl]
    | some msucc => simp [hsb, hl]

theorem lookup_eq_none_iff (s : Store) (k : ℕ) :
    lookup s k = none ↔ ∀ p ∈ s, p.1 ≠ k := by
  induction s with
  | nil => simp [lookup, List.lookup]
  | cons p rest ih =>
    obtain ⟨a, m⟩ := p
    rw [lookup_cons]
    by_cases hk : k = a
    · subst hk
      simp
    · rw [if_neg hk, ih]
      simp only [List.mem_cons]
      constructor
      · intro hall p hp
        rcases hp with hp | hp
        · subst hp
          exact fun hh => hk hh.symm
        · exact hall p hp
      · intro hall p hp
        exact hall p (Or.inr hp)

theorem lookup_eq_of_mem_nodup (s : Store) (id : ℕ) (m : Mem)
    (hnd : (s.map Prod.fst).Nodup) (hmem : (id, m) ∈ s) :
    lookup s id = some m := by
  induction s with
  | nil => simp at hmem
  | cons p rest ih =>
    obtain ⟨a, b⟩ := p
    rw [List.map_cons, List.nodup_cons] at hnd
    rcases List.mem_cons.mp hmem with hh | hh
    · injection hh with h1 h2
      subst h1
      subst h2
      rw [lookup_cons, if_pos rfl]
    · have hne : id ≠ a := by
        intro hid
        subst hid
        exact hnd.1 (List.mem_map.mpr ⟨(id, m), hh, rfl⟩)
      rw [lookup_cons, if_neg hne]
      exact ih hnd.2 hh

theorem keys_setMem (s : Store) (id : ℕ) (f : Mem → Mem) :
    (setMem s id f).map Prod.fst = s.map Prod.fst := by
  unfold setMem
  rw [List.map_map]
  apply List.map_congr_left
  intro p _hp
  by_cases h : p.1 = id
  · simp [h]
  · simp [h]

theorem keys_step (s : Store) (op : Op) (hnd : (s.map Prod.fst).Nodup) :
    ((step s op).map Prod.fst).Nodup := by
  cases op with
  | insert id content st now =>
    simp only [step]
    split
    · rename_i hguard
      rw [List.map_cons, List.nodup_cons]
      refine ⟨?_, hnd⟩
      intro hmem
      obtain ⟨p, hp, hpe⟩ := List.mem_map.mp hmem
      have := (lookup_eq_none_iff s id).mp (Option.isNone_iff_eq_none.mp hguard.1) p hp
      exact this hpe
    · exact hnd
  | reinforce id incr => simp only [step]; rw [keys_setMem]; exact hnd
  | supersede oldId newId t =>
    simp only [step]
    split
    · rw [keys_setMem]; exact hnd
    · exact hnd
  | forget id hard =>
    cases hard with
    | true =>
      simp only [step, if_pos rfl]
      have hsub : ((s.filter fun p => p.1 != id).map Prod.fst).Sublist (s.map Prod.fst) :=
        (List.filter_sublist s).map Prod.fst
      exact hnd.sublist hsub
    | false =>
      simp only [step, Bool.false_eq_true, if_false]
      rw [keys_setMem]
      exact hnd
  | stamp id w => simp only [step]; rw [keys_setMem]; exact hnd
  | decay id amount => simp only [step]; rw [keys_setMem]; exact hnd


theorem invariant_setMem_fields (s : Store) (id : ℕ) (f : Mem → Mem)
    (hf : ∀ m, (f m).status = m.status ∧ (f m).superseded_by = m.superseded_by ∧
      (f m).valid_until = m.valid_until ∧ (f m).valid_from = m.valid_from)
    (hInv : Invariant s) : Invariant (setMem s id f) := by
  intro p hp
  rw [memOkB_iff]
  obtain ⟨q, hq, rfl⟩ := List.mem_map.mp hp
  have hmem := hInv q hq
  rw [memOkB_iff] at hmem
  have hsucc2 : ∀ succId, (if q.1 = id then (q.1, f q.2) else q).2.superseded_by = some succId →
      ∃ msucc, lookup (setMem s id f) succId = some msucc ∧
        msucc.status = Status.active ∧
        (if q.1 = id then (q.1, f q.2) else q).2.valid_until ≤ (msucc.valid_from : WithTop ℤ) := by
    intro succId hsucc
    have hsb : q.2.superseded_by = some succId := by
      by_cases hqid : q.1 = id
      · rw [if_pos hqid] at hsucc
        rw [← (hf q.2).2.1]
        exact hsucc
      · rw [if_neg hqid] at hsucc
        exact hsucc
    obtain ⟨msucc, hlk, hact, hvu⟩ := hmem.2 succId hsb
    have hvu2 : (if q.1 = id then (q.1, f q.2) else q).2.valid_until ≤
        (msucc.valid_from : WithTop ℤ) := by
      by_cases hqid : q.1 = id
      · rw [if_pos hqid]
        exact le_of_eq_of_le (hf q.2).2.2.1 hvu
      · rw [if_neg hqid]
        exact hvu
    rw [lookup_setMem]
    by_cases hsid : succId = id
    · subst hsid
      rw [if_pos rfl, hlk]
      refine ⟨f msucc, rfl, ((hf msucc).1).trans hact, ?_⟩
      rw [(hf msucc).2.2.2]
      exact hvu2
    · rw [if_neg hsid]
      exact ⟨msucc, hlk, hact, hvu2⟩
  refine ⟨?_, hsucc2⟩
  by_cases hqid : q.1 = id
  · rw [if_pos hqid]
    simp only [(hf q.2).1, (hf q.2).2.1]
    exact hmem.1
  · rw [if_neg hqid]
    exact hmem.1

theorem invariant_step (s : Store) (op : Op) (hnd : (s.map Prod.fst).Nodup)
    (hInv : Invariant s) (hok : okOpB s op = true) : Invariant (step s op) := by
  cases op with
  | insert id content st now =>
    simp only [step]
    split
    · rename_i hguard
      intro p hp
      rw [memOkB_iff]
      rcases List.mem_cons.mp hp with hph | hpt
      · subst hph
        refine ⟨by simp [hguard.2.1], ?_⟩
        intro succId hsucc
        simp at hsucc
      · have hmem := hInv p hpt
        rw [memOkB_iff] at hmem
        refine ⟨hmem.1, ?_⟩
        intro succId hsucc
        obtain ⟨msucc, hlk, hact, hvu⟩ := hmem.2 succId hsucc
        refine ⟨msucc, ?_, hact, hvu⟩
        rw [lookup_cons, if_neg ?_]
        · exact hlk
        · intro heq
          subst heq
          rw [Option.isNone_iff_eq_none] at hguard
          rw [hguard.1] at hlk
          exact Option.noConfusion hlk
    · exact hInv
  | reinforce id incr =>
    simp only [step]
    exact invariant_setMem_fields s id _ (fun m => ⟨rfl, rfl, rfl, rfl⟩) hInv
  | supersede oldId newId t =>
    simp only [step]
    split
    · rename_i hguard
      simp only [okOpB, Bool.and_eq_true, decide_eq_true_eq, List.all_eq_true] at hok
      obtain ⟨⟨hne, hall⟩, hmatch⟩ := hok
      obtain ⟨mn, hmn⟩ := Option.isSome_iff_exists.mp hguard.2
      rw [hmn] at hmatch
      simp only [Bool.and_eq_true, decide_eq_true_eq] at hmatch
      intro p hp
      rw [memOkB_iff]
      obtain ⟨q, hq, rfl⟩ := List.mem_map.mp hp
      have hmem := hInv q hq
      rw [memOkB_iff] at hmem
      by_cases hqo : q.1 = oldId
      · rw [if_pos hqo]
        refine ⟨by simp, ?_⟩
        intro succId hsucc
        simp only at hsucc
        injection hsucc with hsucc
        subst hsucc
        have hno : newId ≠ oldId := fun hh => hne hh.symm
        rw [lookup_setMem, if_neg hno, hmn]
        refine ⟨mn, rfl, hmatch.1, ?_⟩
        show (t : WithTop ℤ) ≤ (mn.valid_from : WithTop ℤ)
        exact_mod_cast hmatch.2
      · rw [if_neg hqo]
        refine ⟨hmem.1, ?_⟩
        intro succId hsucc
        obtain ⟨msucc, hlk, hact, hvu⟩ := hmem.2 succId hsucc
        have hso : succId ≠ oldId := by
          intro hh
          subst hh
          have := hall q hq
          rw [bne_iff_ne] at this
          exact this hsucc
        rw [lookup_setMem, if_neg hso]
        exact ⟨msucc, hlk, hact, hvu⟩
    · exact hInv
  | forget id hard =>
    simp only [okOpB, Bool.and_eq_true, List.all_eq_true] at hok
    obtain ⟨hall, hrest⟩ := hok
    cases hard with
    | true =>
      have hstep : step s (Op.forget id true) = s.filter fun p => p.1 != id := by
        simp [step]
      rw [hstep]
      intro p hp
      rw [memOkB_iff]
      have hpf := List.mem_filter.mp hp
      have hmem := hInv p hpf.1
      rw [memOkB_iff] at hmem
      refine ⟨hmem.1, ?_⟩
      intro succId hsucc
      obtain ⟨msucc, hlk, hact, hvu⟩ := hmem.2 succId hsucc
      have hsid : succId ≠ id := by
        intro hh
        subst hh
        have := hall p hpf.1
        rw [bne_iff_ne] at this
        exact this hsucc
      rw [lookup_filter_ne _ _ _ hsid]
      exact ⟨msucc, hlk, hact, hvu⟩
    | false =>
      simp only [step, Bool.false_eq_true, if_false]
      simp only [Bool.false_or] at hrest
      intro p hp
      rw [memOkB_iff]
      obtain ⟨q, hq, rfl⟩ := List.mem_map.mp hp
      have hmem := hInv q hq
      rw [memOkB_iff] at hmem
      by_cases hqid : q.1 = id
      · rw [if_pos hqid]
        have hlkq : lookup s id = some q.2 := by
          rw [← hqid]
          exact lookup_eq_of_mem_nodup s q.1 q.2 hnd hq
        rw [hlkq] at hrest
        simp only [decide_eq_true_eq] at hrest
        have hsb : q.2.superseded_by = none := by
          by_contra hsb
          exact hrest (hmem.1.mpr hsb)
        refine ⟨by simp [hsb], ?_⟩
        intro succId hsucc
        simp only [hsb] at hsucc
        exact Option.noConfusion hsucc
      · rw [if_neg hqid]
        refine ⟨hmem.1, ?_⟩
        intro succId hsucc
        obtain ⟨msucc, hlk, hact, hvu⟩ := hmem.2 succId hsucc
        have hsid : succId ≠ id := by
          intro hh
          subst hh
          have := hall q hq
          rw [bne_iff_ne] at this
          exact this hsucc
        rw [lookup_setMem, if_neg hsid]
        exact ⟨msucc, hlk, hact, hvu⟩
  | stamp id w =>
    simp only [step]
    exact invariant_setMem_fields s id _ (fun m => ⟨rfl, rfl, rfl, rfl⟩) hInv
  | decay id amount =>
    simp only [step]
    exact invariant_setMem_fields s id _ (fun m => ⟨rfl, rfl, rfl, rfl⟩) hInv

theorem invariant_run (ops : List Op) : ∀ (s : Store), (s.map Prod.fst).Nodup →
    Invariant s → GuardedB s ops = true → Invariant (run s ops) := by
  induction ops with
  | nil => intro s _ hInv _; exact hInv
  | cons op rest ih =>
    intro s hnd hInv hg
    simp only [GuardedB, Bool.and_eq_true] at hg
    simp only [run, List.foldl_cons]
    exact ih (step s op) (keys_step s op hnd) (invariant_step s op hnd hInv hg.1) hg.2

/-- C2 counterexample: the spec-modelled operations admit a reachable
trace violating the claimed invariant: supersede one active memory by
another and then soft-forget the successor; the predecessor keeps status
superseded and a set superseded_by, but its successor now has status
archived, not active. -/
theorem supersession_invariant_cex :
    ¬ Invariant (run []
      [Op.insert 1 "Alex works at Corp A" Status.active 0,
       Op.insert 2 "Alex moved to Corp B" Status.active 10,
       Op.supersede 1 2 10,
       Op.forget 2 false]) := by
  unfold Invariant
  decide

/-- C2 (amended): starting from an empty store, after every sequence of
operations in which each supersede names a distinct, active successor no
older than the transition instant and a predecessor no other memory
points to, and no forget removes or archives a memory some predecessor
points to (nor soft-forgets a superseded memory), every memory has status
superseded exactly when superseded_by is set, and then the successor
exists with status active and valid_until at most the successor's
valid_from. -/
theorem supersession_invariant_guarded (ops : List Op) (h : GuardedB [] ops = true) :
    Invariant (run [] ops) :=
  invariant_run ops [] (by simp) (by intro p hp; simp at hp) h

/-- Instantiation of supersession_invariant_guarded at a concrete guarded
seven-operation trace. -/
theorem supersession_invariant_guarded_witness :
    Invariant (run []
      [Op.insert 1 "Alex works at Corp A" Status.active 0,
       Op.insert 2 "Alex moved to Corp B" Status.active 10,
       Op.supersede 1 2 5,
       Op.reinforce 2 (1 / 10),
       Op.stamp 2 50,
       Op.decay 1 (1 / 100),
       Op.forget 1 true]) :=
  supersession_invariant_guarded
    [Op.insert 1 "Alex works at Corp A" Status.active 0,
     Op.insert 2 "Alex moved to Corp B" Status.active 10,
     Op.supersede 1 2 5,
     Op.reinforce 2 (1 / 10),
     Op.stamp 2 50,
     Op.decay 1 (1 / 100),
     Op.forget 1 true] (by decide)

end VaultModel

namespace RecallModel

theorem latestActive_mem : ∀ (g : List Cand) (r : Cand), latestActive g = some r → r ∈ g := by
  intro g
  induction g with
  | nil => intro r h; simp [latestActive] at h
  | cons c rest ih =>
    intro r h
    rw [latestActive] at h
    cases hla : latestActive rest with
    | none =>
      rw [hla] at h
      dsimp only at h
      by_cases hact : c.status = Status.active
      · rw [if_pos hact] at h
        exact List.mem_cons.mpr (Or.inl (Option.some.inj h).symm)
      · rw [if_neg hact] at h
        exact Option.noConfusion h
    | some b =>
      rw [hla] at h
      dsimp only at h
      by_cases hcond : c.status = Status.active ∧ b.validFrom < c.validFrom
      · rw [if_pos hcond] at h
        exact List.mem_cons.mpr (Or.inl (Option.some.inj h).symm)
      · rw [if_neg hcond] at h
        rw [← Option.some.inj h]
        exact List.mem_cons.mpr (Or.inr (ih b hla))

theorem latestActive_active : ∀ (g : List Cand) (r : Cand), latestActive g = some r →
    r.status = Status.active := by
  intro g
  induction g with
  | nil => intro r h; simp [latestActive] at h
  | cons c rest ih =>
    intro r h
    rw [latestActive] at h
    cases hla : latestActive rest with
    | none =>
      rw [hla] at h
      dsimp only at h
      by_cases hact : c.status = Status.active
      · rw [if_pos hact] at h
        rw [← Option.some.inj h]
        exact hact
      · rw [if_neg hact] at h
        exact Option.noConfusion h
    | some b =>
      rw [hla] at h
      dsimp only at h
      by_cases hcond : c.status = Status.active ∧ b.validFrom < c.validFrom
      · rw [if_pos hcond] at h
        rw [← Option.some.inj h]
        exact hcond.1
      · rw [if_neg hcond] at h
        rw [← Option.some.inj h]
        exact ih b hla

theorem latestActive_none : ∀ (g : List Cand), latestActive g = none →
    ∀ c ∈ g, c.status ≠ Status.active := by
  intro g
  induction g with
  | nil => intro _ c hc; simp at hc
  | cons c rest ih =>
    intro h d hd
    rw [latestActive] at h
    cases hla : latestActive rest with
    | none =>
      rw [hla] at h
      dsimp only at h
      by_cases hact : c.status = Status.active
      · rw [if_pos hact] at h
        exact Option.noConfusion h
      · rw [if_neg hact] at h
        rcases List.mem_cons.mp hd with hh | hh
        · subst hh; exact hact
        · exact ih hla d hh
    | some b =>
      rw [hla] at h
      dsimp only at h
      by_cases hcond : c.status = Status.active ∧ b.validFrom < c.validFrom
      · rw [if_pos hcond] at h
        exact Option.noConfusion h
      · rw [if_neg hcond] at h
        exact Option.noConfusion h

theorem latestActive_isSome (g : List Cand) (hex : ∃ c ∈ g, c.status = Status.active) :
    ∃ r, latestActive g = some r := by
  cases hla : latestActive g with
  | none =>
    obtain ⟨c, hc, hact⟩ := hex
    exact absurd hact (latestActive_none g hla c hc)
  | some r => exact ⟨r, rfl⟩

theorem latestActive_max : ∀ (g : List Cand) (r : Cand), latestActive g = some r →
    ∀ c ∈ g, c.status = Status.active → c.validFrom ≤ r.validFrom := by
  intro g
  induction g with
  | nil => intro r h; simp [latestActive] at h
  | cons c rest ih =>
    intro r h d hd hdact
    rw [latestActive] at h
    cases hla : latestActive rest with
    | none =>
      rw [hla] at h
      dsimp only at h
      by_cases hact : c.status = Status.active
      · rw [if_pos hact] at h
        rw [← Option.some.inj h]
        rcases List.mem_cons.mp hd with hh | hh
        · subst hh
          exact le_rfl
        · exact absurd hdact (latestActive_none rest hla d hh)
      · rw [if_neg hact] at h
        exact Option.noConfusion h
    | some b =>
      rw [hla] at h
      dsimp only at h
      by_cases hcond : c.status = Status.active ∧ b.validFrom < c.validFrom
      · rw [if_pos hcond] at h
        rw [← Option.some.inj h]
        rcases List.mem_cons.mp hd with hh | hh
        · subst hh
          exact le_rfl
        · exact (lt_of_le_of_lt (ih b hla d hh hdact) hcond.2).le
      · rw [if_neg hcond] at h
        rw [← Option.some.inj h]
        rcases List.mem_cons.mp hd with hh | hh
        · subst hh
          by_cases hdle : d.validFrom ≤ b.validFrom
          · exact hdle
          · exact absurd ⟨hdact, lt_of_not_le hdle⟩ hcond
        · exact ih b hla d hh hdact

theorem mem_groupOf (cands : List Cand) (k : String × String) (c : Cand) :
    c ∈ groupOf cands k ↔ c ∈ cands ∧ keyOf c = k := by
  simp [groupOf]

theorem groupKeys_of_mem (cands : List Cand) (c : Cand) (hc : c ∈ cands) :
    keyOf c ∈ groupKeys cands :=
  List.mem_dedup.mpr (List.mem_map.mpr ⟨c, hc, rfl⟩)

/-- C3: In the dedup phase of recall, each group of candidates sharing a
(primary-entity, topic-signature) key that has at least one active member
contributes exactly one retained candidate: an active member with the
latest valid_from among the active members of the group; every other
member lands in the retained candidate dedup set, and no other member of
the group appears among the retained results. -/
theorem dedup_newest_active_wins (cands : List Cand) (k : String × String)
    (hactive : ∃ c ∈ groupOf cands k, c.status = Status.active) :
    ∃ r, latestActive (groupOf cands k) = some r ∧
      r ∈ groupOf cands k ∧
      r.status = Status.active ∧
      (∀ c ∈ groupOf cands k, c.status = Status.active → c.validFrom ≤ r.validFrom) ∧
      (r, (groupOf cands k).filter fun c => decide (c ≠ r)) ∈ dedupPhase cands ∧
      (∀ c ∈ groupOf cands k, c ≠ r →
        c ∈ (groupOf cands k).filter fun c => decide (c ≠ r)) ∧
      (∀ p ∈ dedupPhase cands, keyOf p.1 = k →
        p = (r, (groupOf cands k).filter fun c => decide (c ≠ r))) := by
  obtain ⟨r, hla⟩ := latestActive_isSome _ hactive
  have hrg : r ∈ groupOf cands k := latestActive_mem _ r hla
  have hk : k ∈ groupKeys cands := by
    obtain ⟨c0, hc0, _⟩ := hactive
    have := (mem_groupOf cands k c0).mp hc0
    exact this.2 ▸ groupKeys_of_mem cands c0 this.1
  refine ⟨r, hla, hrg, latestActive_active _ r hla, latestActive_max _ r hla, ?_, ?_, ?_⟩
  · apply List.mem_filterMap.mpr
    exact ⟨k, hk, by rw [hla]⟩
  · intro c hc hcr
    rw [List.mem_filter]
    exact ⟨hc, by simpa using hcr⟩
  · intro p hp hkey
    obtain ⟨k2, hk2, hf⟩ := List.mem_filterMap.mp hp
    cases hla2 : latestActive (groupOf cands k2) with
    | none => rw [hla2] at hf; exact Option.noConfusion hf
    | some r2 =>
      rw [hla2] at hf
      dsimp only at hf
      have hp2 : p = (r2, (groupOf cands k2).filter fun c => decide (c ≠ r2)) :=
        (Option.some.inj hf).symm
      have hr2g : r2 ∈ groupOf cands k2 := latestActive_mem _ r2 hla2
      have hk2e : k2 = k := by
        have := ((mem_groupOf cands k2 r2).mp hr2g).2
        rw [← this, ← hkey, hp2]
      subst hk2e
      rw [hla] at hla2
      have : r = r2 := Option.some.inj hla2
      subst this
      exact hp2

/-- Instantiation of dedup_newest_active_wins at a two-candidate group
holding an older and a newer active fact. -/
theorem dedup_newest_active_wins_witness :
    ∃ r, latestActive (groupOf
        [Cand.mk 1 "alex" "job" (1 / 2) Status.active 0 ⊤,
         Cand.mk 2 "alex" "job" (1 / 2) Status.active 10 ⊤] ("alex", "job")) = some r ∧
      r ∈ groupOf
        [Cand.mk 1 "alex" "job" (1 / 2) Status.active 0 ⊤,
         Cand.mk 2 "alex" "job" (1 / 2) Status.active 10 ⊤] ("alex", "job") ∧
      r.status = Status.active ∧
      (∀ c ∈ groupOf
          [Cand.mk 1 "alex" "job" (1 / 2) Status.active 0 ⊤,
           Cand.mk 2 "alex" "job" (1 / 2) Status.active 10 ⊤] ("alex", "job"),
        c.status = Status.active → c.validFrom ≤ r.validFrom) ∧
      (r, (groupOf
          [Cand.mk 1 "alex" "job" (1 / 2) Status.active 0 ⊤,
           Cand.mk 2 "alex" "job" (1 / 2) Status.active 10 ⊤] ("alex", "job")).filter
            fun c => decide (c ≠ r)) ∈ dedupPhase
        [Cand.mk 1 "alex" "job" (1 / 2) Status.active 0 ⊤,
         Cand.mk 2 "alex" "job" (1 / 2) Status.active 10 ⊤] ∧
      (∀ c ∈ groupOf
          [Cand.mk 1 "alex" "job" (1 / 2) Status.active 0 ⊤,
           Cand.mk 2 "alex" "job" (1 / 2) Status.active 10 ⊤] ("alex", "job"), c ≠ r →
        c ∈ (groupOf
          [Cand.mk 1 "alex" "job" (1 / 2) Status.active 0 ⊤,
           Cand.mk 2 "alex" "job" (1 / 2) Status.active 10 ⊤] ("alex", "job")).filter
            fun c => decide (c ≠ r)) ∧
      (∀ p ∈ dedupPhase
          [Cand.mk 1 "alex" "job" (1 / 2) Status.active 0 ⊤,
           Cand.mk 2 "alex" "job" (1 / 2) Status.active 10 ⊤],
        keyOf p.1 = ("alex", "job") →
        p = (r, (groupOf
          [Cand.mk 1 "alex" "job" (1 / 2) Status.active 0 ⊤,
           Cand.mk 2 "alex" "job" (1 / 2) Status.active 10 ⊤] ("alex", "job")).filter
            fun c => decide (c ≠ r))) :=
  dedup_newest_active_wins
    [Cand.mk 1 "alex" "job" (1 / 2) Status.active 0 ⊤,
     Cand.mk 2 "alex" "job" (1 / 2) Status.active 10 ⊤] ("alex", "job")
    ⟨Cand.mk 1 "alex" "job" (1 / 2) Status.active 0 ⊤,
     (mem_groupOf _ _ _).mpr ⟨by simp, rfl⟩, rfl⟩

/-- C7: Every memory returned by a point-in-time recall satisfies the
half-open validity condition: valid_from is at most the supplied instant,
which is strictly below valid_until. -/
theorem pointInTime_validity (u : ℤ) (cands : List Cand) (limit : ℕ) :
    ∀ m ∈ recallAt (some u) cands limit,
      m.validFrom ≤ u ∧ (u : WithTop ℤ) < m.validUntil := by
  intro m hm
  simp only [recallAt] at hm
  have h1 := List.mem_of_mem_take hm
  rw [List.mem_mergeSort] at h1
  have h2 := (List.mem_filter.mp h1).2
  simp only [Bool.and_eq_true, decide_eq_true_eq] at h2
  exact h2

/-- Instantiation of pointInTime_validity at a singleton candidate list
and the instant 5. -/
theorem pointInTime_validity_witness :
    (Cand.mk 1 "alex" "job" (1 / 2) Status.active 0 ⊤).validFrom ≤ 5 ∧
    ((5 : ℤ) : WithTop ℤ) < (Cand.mk 1 "alex" "job" (1 / 2) Status.active 0 ⊤).validUntil :=
  pointInTime_validity 5 [Cand.mk 1 "alex" "job" (1 / 2) Status.active 0 ⊤] 3
    (Cand.mk 1 "alex" "job" (1 / 2) Status.active 0 ⊤)
    (by
      simp only [recallAt]
      have hf : pitFilter 5 [Cand.mk 1 "alex" "job" (1 / 2) Status.active 0 ⊤] =
          [Cand.mk 1 "alex" "job" (1 / 2) Status.active 0 ⊤] := by
        unfold pitFilter
        rw [List.filter_cons]
        simp
      rw [hf]
      simp)

end RecallModel

namespace EvalCodebase

theorem chunkLoop_length_le (content : List Char) (maxChars overlap : ℤ) :
    ∀ (k : ℕ) (start : ℤ) (part : ℕ), part ≤ 50 → 50 - part ≤ k →
    (chunkLoop content maxChars overlap start part).length ≤ 51 - part := by
  intro k
  induction k with
  | zero =>
    intro start part hp hk
    have hp50 : part = 50 := by omega
    subst hp50
    rw [chunkLoop]
    split
    · split
      · simp
      · omega
    · simp
  | succ k ih =>
    intro start part hp hk
    rw [chunkLoop]
    split
    · split
      · simp
        omega
      · rename_i hcond
        simp only [List.length_cons]
        have h51 : 51 - part = (51 - (part + 1)) + 1 := by omega
        rw [h51, Nat.add_le_add_iff_right]
        exact ih _ _ (by omega) (by omega)
    · simp

/-- C9: chunkFile terminates on every input — the loop counter part
strictly increases and the part > 50 safety break bounds the iteration
count, which is what makes the embedding total by structural recursion on
that bound — and it returns at most 50 chunks; a content no longer than
maxChars yields exactly one chunk carrying the entire content with part
number 1. -/
theorem chunkFile_terminates_bounded (content : List Char) (maxChars overlap : ℤ) :
    (chunkFile content maxChars overlap).length ≤ 50 ∧
    ((content.length : ℤ) ≤ maxChars →
      chunkFile content maxChars overlap = [⟨content, 1⟩]) := by
  constructor
  · unfold chunkFile
    split
    · simp
    · have := chunkLoop_length_le content maxChars overlap 49 0 1 (by omega) (by omega)
      omega
  · intro h
    unfold chunkFile
    rw [if_pos h]

/-- Instantiation of chunkFile_terminates_bounded at a two-character file
with window 10. -/
theorem chunkFile_terminates_bounded_witness :
    (chunkFile ['a', 'b'] 10 2).length ≤ 50 ∧
    chunkFile ['a', 'b'] 10 2 = [⟨['a', 'b'], 1⟩] :=
  ⟨(chunkFile_terminates_bounded ['a', 'b'] 10 2).1,
   (chunkFile_terminates_bounded ['a', 'b'] 10 2).2 (by decide)⟩

end EvalCodebase

namespace RagBaseline

theorem basicRAG_mem (g : ℕ → Option StoredMemory) (vrs : List VectorResult) :
    ∀ s ∈ basicRAGMemories g vrs, ∃ vr ∈ vrs, ∃ mem, g vr.memoryId = some mem ∧
      mem.status ≠ Status.archived ∧ mem.content = s := by
  intro s hs
  unfold basicRAGMemories at hs
  rw [List.mem_filterMap] at hs
  obtain ⟨vr, hvr, hf⟩ := hs
  refine ⟨vr, hvr, ?_⟩
  cases hg : g vr.memoryId with
  | none => rw [hg] at hf; simp at hf
  | some mem =>
    rw [hg] at hf
    dsimp only at hf
    by_cases harch : mem.status = Status.archived
    · rw [if_neg (by simpa using harch)] at hf
      simp at hf
    · rw [if_pos harch] at hf
      exact ⟨mem, rfl, harch, Option.some_injective _ hf⟩

theorem basicRAG_filter_eq (g : ℕ → Option StoredMemory) (vrs : List VectorResult) :
    basicRAGMemories g vrs = basicRAGMemories g (vrs.filter (notArchivedResult g)) := by
  induction vrs with
  | nil => rfl
  | cons vr rest ih =>
    rw [List.filter_cons]
    cases hg : g vr.memoryId with
    | none =>
      have hna : notArchivedResult g vr = true := by simp [notArchivedResult, hg]
      rw [if_pos hna]
      simp only [basicRAGMemories, List.filterMap_cons, hg] at *
      exact ih
    | some mem =>
      by_cases harch : mem.status = Status.archived
      · have hna : notArchivedResult g vr = false := by simp [notArchivedResult, hg, harch]
        rw [hna]
        simp only [Bool.false_eq_true, if_false]
        simp only [basicRAGMemories, List.filterMap_cons, hg, harch] at *
        simpa using ih
      · have hna : notArchivedResult g vr = true := by simp [notArchivedResult, hg, harch]
        rw [if_pos hna]
        simp only [basicRAGMemories, List.filterMap_cons, hg, harch] at *
        rw [ih]

/-- C4: In the basic-RAG retrieval of answerWithBasicRAG, no archived
memory contributes to the assembled context: every recalled content comes
from a hydrated, non-archived memory, and dropping the vector-search
results whose hydrated memory is archived changes neither the recalled
list nor the assembled context. -/
theorem basicRAG_excludes_archived (g : ℕ → Option StoredMemory)
    (vrs : List VectorResult) :
    (∀ s ∈ basicRAGMemories g vrs, ∃ vr ∈ vrs, ∃ mem, g vr.memoryId = some mem ∧
      mem.status ≠ Status.archived ∧ mem.content = s) ∧
    basicRAGMemories g vrs = basicRAGMemories g (vrs.filter (notArchivedResult g)) ∧
    assembledContext g vrs = assembledContext g (vrs.filter (notArchivedResult g)) := by
  refine ⟨basicRAG_mem g vrs, basicRAG_filter_eq g vrs, ?_⟩
  unfold assembledContext
  rw [basicRAG_filter_eq g vrs]

/-- Instantiation of basicRAG_excludes_archived at a two-row store holding
one active and one archived memory. -/
theorem basicRAG_excludes_archived_witness :
    ∀ s ∈ basicRAGMemories
        (fun id => if id = 1 then some ⟨"kept", Status.active⟩
                   else if id = 2 then some ⟨"gone", Status.archived⟩ else none)
        [⟨1, 9 / 10⟩, ⟨2, 8 / 10⟩],
      ∃ vr ∈ [(⟨1, 9 / 10⟩ : VectorResult), ⟨2, 8 / 10⟩], ∃ mem,
        (fun id => if id = 1 then some (⟨"kept", Status.active⟩ : StoredMemory)
                   else if id = 2 then some ⟨"gone", Status.archived⟩ else none) vr.memoryId
            = some mem ∧
        mem.status ≠ Status.archived ∧ mem.content = s :=
  (basicRAG_excludes_archived
    (fun id => if id = 1 then some ⟨"kept", Status.active⟩
               else if id = 2 then some ⟨"gone", Status.archived⟩ else none)
    [⟨1, 9 / 10⟩, ⟨2, 8 / 10⟩]).1

end RagBaseline

/-- C6: Recall over an empty corpus yields an empty result rather than an
error: vectorSearchMarkdown on an empty chunk and embedding list returns
the empty list, and the basic-RAG retrieval with no vector-search matches
recalls zero memories; both are total functions. -/
theorem emptyCorpus_recall_empty (queryEmb : List ℝ) (limit : ℕ)
    (g : ℕ → Option RagBaseline.StoredMemory) :
    EvalHonest.vectorSearchMarkdown queryEmb [] [] limit = [] ∧
    RagBaseline.basicRAGMemories g [] = [] := by
  constructor
  · simp [EvalHonest.vectorSearchMarkdown]
  · rfl

theorem getD_range_map (n : ℕ) (f : ℕ → ℕ) (i : ℕ) (h : i < n) :
    ((List.range n).map f).getD i 0 = f i := by
  rw [List.getD_eq_getElem?_getD, List.getElem?_map, List.getElem?_range h]
  rfl

namespace Locomo

theorem locomoAttempts_le (responses : ℕ → FetchOutcome) (a : ℕ) :
    (callGeminiFrom responses a).attempts ≤ 11 - a := by
  induction a using callGeminiFrom.induct responses with
  | case1 a h => rw [callGeminiFrom, dif_pos h]; simp
  | case2 a h status text hr hcond ih =>
    rw [callGeminiFrom, dif_neg h, hr]
    simp only [if_pos hcond]
    simp only [MAX_RETRIES] at h
    omega
  | case3 a h status text hr hcond hok =>
    rw [callGeminiFrom, dif_neg h, hr]
    simp only [if_neg hcond, if_pos hok]
    simp only [MAX_RETRIES] at h
    omega
  | case4 a h status text hr hcond hok =>
    rw [callGeminiFrom, dif_neg h, hr]
    simp only [if_neg hcond, if_neg hok]
    simp only [MAX_RETRIES] at h
    omega
  | case5 a h t m hr hcond ih =>
    rw [callGeminiFrom, dif_neg h, hr]
    simp only [if_pos hcond]
    simp only [MAX_RETRIES] at h
    omega
  | case6 a h t m hr hcond =>
    rw [callGeminiFrom, dif_neg h, hr]
    simp only [if_neg hcond]
    simp only [MAX_RETRIES] at h
    omega

theorem delays_closed (responses : ℕ → FetchOutcome) (a : ℕ) :
    (callGeminiFrom responses a).delays =
      (List.range (callGeminiFrom responses a).delays.length).map
        (fun i => RATE_LIMIT_MS * 2 ^ (a + i)) := by
  induction a using callGeminiFrom.induct responses with
  | case1 a h => rw [callGeminiFrom, dif_pos h]; rfl
  | case2 a h status text hr hcond ih =>
    rw [callGeminiFrom, dif_neg h, hr]
    simp only [if_pos hcond, List.length_cons]
    rw [List.range_succ_eq_map, List.map_cons, List.map_map]
    have htail : List.map ((fun i => RATE_LIMIT_MS * 2 ^ (a + i)) ∘ Nat.succ)
        (List.range (callGeminiFrom responses (a + 1)).delays.length) =
        List.map (fun i => RATE_LIMIT_MS * 2 ^ (a + 1 + i))
        (List.range (callGeminiFrom responses (a + 1)).delays.length) := by
      apply List.map_congr_left
      intro i _hi
      simp only [Function.comp_apply]
      rw [show a + Nat.succ i = a + 1 + i from by omega]
    rw [htail, ← ih]
    simp
  | case3 a h status text hr hcond hok =>
    rw [callGeminiFrom, dif_neg h, hr]
    simp only [if_neg hcond, if_pos hok]
    rfl
  | case4 a h status text hr hcond hok =>
    rw [callGeminiFrom, dif_neg h, hr]
    simp only [if_neg hcond, if_neg hok]
    rfl
  | case5 a h t m hr hcond ih =>
    rw [callGeminiFrom, dif_neg h, hr]
    simp only [if_pos hcond, List.length_cons]
    rw [List.range_succ_eq_map, List.map_cons, List.map_map]
    have htail : List.map ((fun i => RATE_LIMIT_MS * 2 ^ (a + i)) ∘ Nat.succ)
        (List.range (callGeminiFrom responses (a + 1)).delays.length) =
        List.map (fun i => RATE_LIMIT_MS * 2 ^ (a + 1 + i))
        (List.range (callGeminiFrom responses (a + 1)).delays.length) := by
      apply List.map_congr_left
      intro i _hi
      simp only [Function.comp_apply]
      rw [show a + Nat.succ i = a + 1 + i from by omega]
    rw [htail, ← ih]
    simp
  | case6 a h t m hr hcond =>
    rw [callGeminiFrom, dif_neg h, hr]
    simp only [if_neg hcond]
    rfl

theorem exponential (responses : ℕ → FetchOutcome) (a : ℕ) :
    IsExponentialBackoff (callGeminiFrom responses a).delays := by
  refine ⟨2, by norm_num, ?_⟩
  intro i hi
  rw [delays_closed responses a]
  rw [getD_range_map _ _ _ (by simpa using hi), getD_range_map _ _ _ (by omega)]
  push_cast
  rw [show a + (i + 1) = (a + i) + 1 from by omega]
  ring

theorem locomoExhaust (responses : ℕ → FetchOutcome) (htr : ∀ k, Transient (responses k))
    (a : ℕ) : ∃ e, (callGeminiFrom responses a).result = Except.error e := by
  induction a using callGeminiFrom.induct responses with
  | case1 a h =>
    exact ⟨"Gemini API failed after MAX_RETRIES retries", by rw [callGeminiFrom, dif_pos h]⟩
  | case2 a h status text hr hcond ih =>
    obtain ⟨e, he⟩ := ih
    refine ⟨e, ?_⟩
    rw [callGeminiFrom, dif_neg h, hr]
    simpa only [if_pos hcond] using he
  | case3 a h status text hr hcond hok =>
    exact absurd (by simpa [Transient, hr] using htr a) hcond
  | case4 a h status text hr hcond hok =>
    exact ⟨"Gemini API failed: HTTP error",
      by rw [callGeminiFrom, dif_neg h, hr]; simp only [if_neg hcond, if_neg hok]⟩
  | case5 a h t m hr hcond ih =>
    obtain ⟨e, he⟩ := ih
    refine ⟨e, ?_⟩
    rw [callGeminiFrom, dif_neg h, hr]
    simpa only [if_pos hcond] using he
  | case6 a h t m hr hcond =>
    exact ⟨"network error", by rw [callGeminiFrom, dif_neg h, hr]; simp only [if_neg hcond]⟩

end Locomo

namespace RagBaseline

theorem ragAttempts_le (responses : ℕ → AttemptOutcome) (a : ℕ) :
    (callGeminiFrom responses a).attempts ≤ 3 - a := by
  induction a using callGeminiFrom.induct responses with
  | case1 a h => rw [callGeminiFrom, dif_pos h]; simp
  | case2 a h t hr =>
    rw [callGeminiFrom, dif_neg h, hr]
    dsimp only
    omega
  | case3 a h hr ih =>
    rw [callGeminiFrom, dif_neg h, hr]
    dsimp only
    omega
  | case4 m h hr =>
    rw [callGeminiFrom, dif_neg h, hr]
    dsimp only
    rw [if_pos rfl]
  | case5 a h m hr hne ih =>
    rw [callGeminiFrom, dif_neg h, hr]
    dsimp only
    rw [if_neg hne]
    dsimp only
    omega

theorem delays_spec (responses : ℕ → AttemptOutcome) (a : ℕ) :
    ∀ i, i < (callGeminiFrom responses a).delays.length →
      (callGeminiFrom responses a).delays.getD i 0 = ragDelay (responses (a + i)) (a + i) := by
  induction a using callGeminiFrom.induct responses with
  | case1 a h =>
    rw [callGeminiFrom, dif_pos h]
    intro i hi
    simp at hi
  | case2 a h t hr =>
    rw [callGeminiFrom, dif_neg h, hr]
    intro i hi
    simp at hi
  | case3 a h hr ih =>
    rw [callGeminiFrom, dif_neg h, hr]
    dsimp only
    intro i hi
    cases i with
    | zero =>
      simp only [List.getD_cons_zero, Nat.add_zero]
      rw [hr]
      rfl
    | succ i =>
      simp only [List.getD_cons_succ]
      rw [show a + (i + 1) = (a + 1) + i from by omega]
      exact ih i (by simpa using hi)
  | case4 m h hr =>
    rw [callGeminiFrom, dif_neg h, hr]
    dsimp only
    intro i hi
    simp at hi
  | case5 a h m hr hne ih =>
    rw [callGeminiFrom, dif_neg h, hr]
    dsimp only
    rw [if_neg hne]
    dsimp only
    intro i hi
    cases i with
    | zero =>
      simp only [List.getD_cons_zero, Nat.add_zero]
      rw [hr]
      rfl
    | succ i =>
      simp only [List.getD_cons_succ]
      rw [show a + (i + 1) = (a + 1) + i from by omega]
      exact ih i (by simpa using hi)

theorem ragExhaust (responses : ℕ → AttemptOutcome)
    (hno : ∀ k t, responses k ≠ AttemptOutcome.okText t) (a : ℕ) :
    ∃ e, (callGeminiFrom responses a).result = Except.error e := by
  induction a using callGeminiFrom.induct responses with
  | case1 a h => exact ⟨"Failed after 3 attempts", by rw [callGeminiFrom, dif_pos h]⟩
  | case2 a h t hr => exact absurd hr (hno a t)
  | case3 a h hr ih =>
    obtain ⟨e, he⟩ := ih
    exact ⟨e, by rw [callGeminiFrom, dif_neg h, hr]; exact he⟩
  | case4 m h hr =>
    exact ⟨m, by rw [callGeminiFrom, dif_neg h, hr]; dsimp only; rw [if_pos rfl]⟩
  | case5 a h m hr hne ih =>
    obtain ⟨e, he⟩ := ih
    refine ⟨e, ?_⟩
    rw [callGeminiFrom, dif_neg h, hr]
    dsimp only
    rw [if_neg hne]
    exact he

end RagBaseline

theorem rag_429_delays :
    (RagBaseline.callGemini (fun _ => RagBaseline.AttemptOutcome.rate429)).delays =
      [5000, 10000, 15000] := by
  simp [RagBaseline.callGemini, RagBaseline.callGeminiFrom]

/-- C5 counterexample: running the RAG-baseline callGemini against three
consecutive HTTP 429 responses sleeps 5000, 10000 and 15000 milliseconds
— a linearly, not exponentially, increasing backoff: no fixed ratio
greater than one relates consecutive delays. -/
theorem ragBackoff_not_exponential :
    (RagBaseline.callGemini (fun _ => RagBaseline.AttemptOutcome.rate429)).delays =
      [5000, 10000, 15000] ∧
    ¬ IsExponentialBackoff
      (RagBaseline.callGemini (fun _ => RagBaseline.AttemptOutcome.rate429)).delays := by
  refine ⟨rag_429_delays, ?_⟩
  rw [rag_429_delays]
  rintro ⟨r, hr1, hspec⟩
  have h0 := hspec 0 (by norm_num)
  have h1 := hspec 1 (by norm_num)
  norm_num [List.getD] at h0 h1
  have hr2 : r = 2 := by linarith
  rw [hr2] at h1
  norm_num at h1

/-- C5 (amended): Both Gemini helpers perform a bounded number of attempts
(10 in the LOCOMO harness, 3 in the RAG baseline) and fail with an error
once the budget is exhausted. The LOCOMO helper backs off exponentially
(RATE_LIMIT_MS times two to the attempt number, doubling each retry); the
RAG baseline instead waits 5000 times (attempt + 1) milliseconds on a
rate limit — linear, not exponential — and a constant 3000 milliseconds
on any other transient failure. -/
theorem callGemini_retry_budget (rL : ℕ → FetchOutcome)
    (rR : ℕ → RagBaseline.AttemptOutcome) :
    (Locomo.callGemini rL).attempts ≤ 10 ∧
    IsExponentialBackoff (Locomo.callGemini rL).delays ∧
    ((∀ k, Locomo.Transient (rL k)) →
      ∃ e, (Locomo.callGemini rL).result = Except.error e) ∧
    (RagBaseline.callGemini rR).attempts ≤ 3 ∧
    (∀ i, i < (RagBaseline.callGemini rR).delays.length →
      (RagBaseline.callGemini rR).delays.getD i 0 = RagBaseline.ragDelay (rR i) i) ∧
    ((∀ k t, rR k ≠ RagBaseline.AttemptOutcome.okText t) →
      ∃ e, (RagBaseline.callGemini rR).result = Except.error e) := by
  refine ⟨Locomo.locomoAttempts_le rL 1, Locomo.exponential rL 1,
    fun htr => Locomo.locomoExhaust rL htr 1, RagBaseline.ragAttempts_le rR 0, ?_,
    fun hno => RagBaseline.ragExhaust rR hno 0⟩
  intro i hi
  have h := RagBaseline.delays_spec rR 0 i (by simpa [RagBaseline.callGemini] using hi)
  simpa [RagBaseline.callGemini] using h

/-- Instantiation of callGemini_retry_budget at all-transient outcome
sequences: both helpers stop with an error. -/
theorem callGemini_retry_budget_witness :
    (∃ e, (Locomo.callGemini (fun _ => FetchOutcome.netError true "reset")).result =
      Except.error e) ∧
    (∃ e, (RagBaseline.callGemini (fun _ => RagBaseline.AttemptOutcome.thrown "boom")).result =
      Except.error e) :=
  ⟨(callGemini_retry_budget (fun _ => FetchOutcome.netError true "reset")
      (fun _ => RagBaseline.AttemptOutcome.thrown "boom")).2.2.1 (fun _ => rfl),
   (callGemini_retry_budget (fun _ => FetchOutcome.netError true "reset")
      (fun _ => RagBaseline.AttemptOutcome.thrown "boom")).2.2.2.2.2 (fun k t => by simp)⟩

end Engram
